import Mathlib

/-!
Verification of the time-based rolling-file logging hook
(`fsrollhook.go`, `rollingfile_hook.go`, `file_archive.go`).

The development is organised as follows.

* A calendar/time model mirroring the parts of Go's `time` package the
  hook uses: instants are seconds since the Unix epoch (`Int`); the
  civil-date conversions follow Go's `absDate` / `daysSinceEpoch`
  cycle-counting algorithms (proleptic Gregorian calendar, no leap
  seconds); `goDate` models `time.Date` (with month normalisation) and
  `addDate` models `Time.AddDate`.  Durations are in seconds; the zone
  is a fixed offset, so `Local` decomposition is plain arithmetic.
* A file-name pattern model: a pattern is a list of tokens (literal
  pieces and the `2006 01 02 15 04 05` layout fields), rendered at an
  instant exactly as Go's `Format` renders those layouts.
* `rolloverAfter`, translated from `FsrollHook.rolloverAfter` /
  `TimeBasedRollingFileHook.rolloverAfter` (the two are identical).
* A small filesystem/effect model for `rolloverFile`, `write`,
  `writeEntry`, `NewHook`, `resetTimer`, `gzipArchive`,
  `gzipArchiveAndDelete` and `archiveOldFile`, with oracles for the
  OS calls that can fail.
-/

/-! ## Leap years, month tables (Go `time`: `isLeap`, `daysBefore`) -/

def isLeap (y : Int) : Prop := y % 4 = 0 ∧ (¬ y % 100 = 0 ∨ y % 400 = 0)

instance (y : Int) : Decidable (isLeap y) := by unfold isLeap; infer_instance

/-- Cumulative days before month `m` (1-based) in a non-leap year;
Go's `daysBefore` table (`daysBefore m` here is Go's `daysBefore[m-1]`). -/
def daysBefore (m : Int) : Int :=
  if m ≤ 1 then 0 else if m ≤ 2 then 31 else if m ≤ 3 then 59 else if m ≤ 4 then 90
  else if m ≤ 5 then 120 else if m ≤ 6 then 151 else if m ≤ 7 then 181 else if m ≤ 8 then 212
  else if m ≤ 9 then 243 else if m ≤ 10 then 273 else if m ≤ 11 then 304 else if m ≤ 12 then 334
  else 365

def monthLen (year m : Int) : Int :=
  daysBefore (m + 1) - daysBefore m + (if isLeap year ∧ m = 2 then 1 else 0)

/-! ## Days since the Unix epoch for a civil date (Go `daysSinceEpoch`)

Go counts days from an absolute zero year with successive 400/100/4/1
year cycles on a value offset by a multiple of 400 years; with floor
division this is the expression below, shifted so day `0` is 1970-01-01. -/

def daysToYear (year : Int) : Int :=
  146097 * ((year - 1) / 400) + 36524 * ((year - 1) % 400 / 100) +
    1461 * ((year - 1) % 400 % 100 / 4) + 365 * ((year - 1) % 400 % 100 % 4) - 719162

/-- Day number (days since 1970-01-01) of a civil date, for `1 ≤ m ≤ 12`;
Go `Date`: `daysSinceEpoch(year) + daysBefore[month-1] + leap adj + (day-1)`.
`d` may lie outside the month; it spills arithmetically exactly as in Go. -/
def dateToAbsDay (year m d : Int) : Int :=
  daysToYear year + daysBefore m + (if isLeap year ∧ 3 ≤ m then 1 else 0) + (d - 1)

/-! ## Civil date of a day number (Go `absDate`) -/

structure Civil where
  y : Int
  m : Int
  d : Int
deriving DecidableEq, Repr

def d0Of (z : Int) : Int := z + 719162
def n400Of (z : Int) : Int := d0Of z / 146097
def r400Of (z : Int) : Int := d0Of z - 146097 * n400Of z
/-- Go: `n = d / daysPer100Years; n -= n >> 2` (clamp 4 to 3). -/
def n100Of (z : Int) : Int := r400Of z / 36524 - r400Of z / 36524 / 4
def r100Of (z : Int) : Int := r400Of z - 36524 * n100Of z
def n4Of (z : Int) : Int := r100Of z / 1461
def r4Of (z : Int) : Int := r100Of z - 1461 * n4Of z
/-- Go: `n = d / 365; n -= n >> 2` (clamp 4 to 3). -/
def n1Of (z : Int) : Int := r4Of z / 365 - r4Of z / 365 / 4
def ydayOf (z : Int) : Int := r4Of z - 365 * n1Of z
def yearOfDay (z : Int) : Int := 400 * n400Of z + 100 * n100Of z + 4 * n4Of z + n1Of z + 1

/-- Month selection from a day-of-year in non-leap coordinates
(Go `absDate`: estimate `day/31`, correct with the `daysBefore` table). -/
def monthSel (day : Int) : Int × Int :=
  if daysBefore (day / 31 + 2) ≤ day then (day / 31 + 2, day - daysBefore (day / 31 + 2) + 1)
  else (day / 31 + 1, day - daysBefore (day / 31 + 1) + 1)

/-- Month/day from the 0-based day of year (Go `absDate`, `full` part):
leap day handled specially, then the `daysBefore` estimate/correction. -/
def monthDayOfYday (year yday : Int) : Int × Int :=
  if isLeap year ∧ yday = 59 then (2, 29)
  else monthSel (if isLeap year ∧ 59 < yday then yday - 1 else yday)

def civilFromDays (z : Int) : Civil :=
  ⟨yearOfDay z, (monthDayOfYday (yearOfDay z) (ydayOf z)).1,
    (monthDayOfYday (yearOfDay z) (ydayOf z)).2⟩

/-! ## Stage lemmas for the cycle decomposition -/

theorem stage400 (z : Int) : 0 ≤ r400Of z ∧ r400Of z ≤ 146096 ∧
    d0Of z = 146097 * n400Of z + r400Of z := by
  unfold r400Of n400Of d0Of; omega

theorem stage100 (z : Int) :
    0 ≤ n100Of z ∧ n100Of z ≤ 3 ∧ 0 ≤ r100Of z ∧ r100Of z ≤ 36524 ∧
    r400Of z = 36524 * n100Of z + r100Of z ∧
    (r100Of z = 36524 → n100Of z = 3 ∧ r400Of z = 146096) := by
  have h := stage400 z
  unfold r100Of n100Of
  omega

theorem stage4 (z : Int) :
    0 ≤ n4Of z ∧ n4Of z ≤ 24 ∧ 0 ≤ r4Of z ∧ r4Of z ≤ 1460 ∧
    r100Of z = 1461 * n4Of z + r4Of z ∧
    (r4Of z = 1460 ∧ n4Of z = 24 → r100Of z = 36524) := by
  have h := stage100 z
  unfold r4Of n4Of
  omega

theorem stage1 (z : Int) :
    0 ≤ n1Of z ∧ n1Of z ≤ 3 ∧ 0 ≤ ydayOf z ∧ ydayOf z ≤ 365 ∧
    r4Of z = 365 * n1Of z + ydayOf z ∧
    (ydayOf z = 365 → n1Of z = 3 ∧ r4Of z = 1460) := by
  have h := stage4 z
  unfold ydayOf n1Of
  omega

/-- All stage facts of `civilFromDays`' year part, with the stage values
as opaque components. -/
theorem stagesOf (z : Int) :
    d0Of z = 146097 * n400Of z + 36524 * n100Of z + 1461 * n4Of z + 365 * n1Of z + ydayOf z ∧
    0 ≤ n100Of z ∧ n100Of z ≤ 3 ∧ 0 ≤ n4Of z ∧ n4Of z ≤ 24 ∧
    0 ≤ n1Of z ∧ n1Of z ≤ 3 ∧ 0 ≤ ydayOf z ∧ ydayOf z ≤ 365 ∧
    (ydayOf z = 365 → n1Of z = 3 ∧ (n4Of z = 24 → n100Of z = 3)) := by
  have h400 := stage400 z
  have h100 := stage100 z
  have h4 := stage4 z
  have h1 := stage1 z
  omega

/-- On the top day of year (`yday = 365`) the year is a leap year. -/
theorem yday_top_leap (z : Int) (h : ydayOf z = 365) : isLeap (yearOfDay z) := by
  have hs := stagesOf z
  unfold isLeap yearOfDay
  omega

/-- The year part of `civilFromDays` is correct: the day count of Jan 1
of `yearOfDay z` is `z - ydayOf z`. -/
theorem daysToYear_yearOfDay (z : Int) : daysToYear (yearOfDay z) = z - ydayOf z := by
  have hs := stagesOf z
  unfold yearOfDay daysToYear d0Of at *
  omega

/-! ## Month-table lemmas -/

set_option maxHeartbeats 1000000 in
/-- Closed form for the `daysBefore` table. -/
theorem daysBefore_eq (k : Int) : daysBefore k =
    if k ≤ 1 then 0 else if 13 ≤ k then 365
    else (367 * k - 362) / 12 - (if 2 < k then 2 else 0) := by
  unfold daysBefore
  split_ifs <;> omega

set_option maxHeartbeats 1600000 in
theorem monthSel_spec (dy mm dd : Int) (h0 : 0 ≤ dy) (h1 : dy ≤ 364)
    (h : monthSel dy = (mm, dd)) :
    1 ≤ mm ∧ mm ≤ 12 ∧ 1 ≤ dd ∧ dd ≤ daysBefore (mm + 1) - daysBefore mm ∧
    daysBefore mm + (dd - 1) = dy ∧ (3 ≤ mm ↔ 59 ≤ dy) := by
  unfold monthSel at h
  rw [daysBefore_eq (dy / 31 + 2), daysBefore_eq (dy / 31 + 1)] at h
  split_ifs at h <;> simp only [Prod.mk.injEq] at h <;> obtain ⟨rfl, rfl⟩ := h <;>
    simp only [daysBefore_eq] <;> split_ifs <;> omega

theorem daysBefore_mono (i j : Int) (h1 : 1 ≤ i) (h2 : i ≤ j) (h3 : j ≤ 13) :
    daysBefore i ≤ daysBefore j := by
  rw [daysBefore_eq i, daysBefore_eq j]
  split_ifs <;> omega

theorem monthSel_inv (dy mm dd : Int) (hm1 : 1 ≤ mm) (hm2 : mm ≤ 12)
    (hd1 : 1 ≤ dd) (hd2 : dd ≤ daysBefore (mm + 1) - daysBefore mm)
    (hdy : daysBefore mm + (dd - 1) = dy) :
    monthSel dy = (mm, dd) := by
  have e1 : daysBefore 1 = 0 := by decide
  have e13 : daysBefore 13 = 365 := by decide
  have hlo := daysBefore_mono 1 mm (by omega) (by omega) (by omega)
  have hhi := daysBefore_mono (mm + 1) 13 (by omega) (by omega) (by omega)
  rcases hp : monthSel dy with ⟨mm', dd'⟩
  have hs := monthSel_spec dy mm' dd' (by omega) (by omega) hp
  have hkey : mm' = mm ∧ dd' = dd := by
    rcases lt_trichotomy mm mm' with hlt | heq | hgt
    · exfalso
      have := daysBefore_mono (mm + 1) mm' (by omega) (by omega) (by omega)
      omega
    · rw [← heq] at hs; omega
    · exfalso
      have := daysBefore_mono (mm' + 1) mm (by omega) (by omega) (by omega)
      omega
  rw [hkey.1, hkey.2]

/-- The month/day part of `absDate` is correct: valid output whose
day-of-year count reproduces the input. -/
theorem monthDayOfYday_spec (year yday mm dd : Int) (h0 : 0 ≤ yday)
    (h1 : yday ≤ 364 ∨ (yday = 365 ∧ isLeap year))
    (h : monthDayOfYday year yday = (mm, dd)) :
    1 ≤ mm ∧ mm ≤ 12 ∧ 1 ≤ dd ∧ dd ≤ monthLen year mm ∧
    daysBefore mm + (if isLeap year ∧ 3 ≤ mm then 1 else 0) + (dd - 1) = yday := by
  have e2 : daysBefore 2 = 31 := by decide
  have e3 : daysBefore (2 + 1) = 59 := by decide
  unfold monthDayOfYday at h
  by_cases hL : isLeap year
  · by_cases h59 : yday = 59
    · rw [if_pos ⟨hL, h59⟩] at h
      simp only [Prod.mk.injEq] at h
      obtain ⟨rfl, rfl⟩ := h
      have hml : monthLen year 2 = 29 := by
        unfold monthLen; rw [if_pos ⟨hL, rfl⟩]; omega
      rw [hml]
      rw [if_neg (by omega)]
      omega
    · rw [if_neg (by simp [h59])] at h
      by_cases h60 : 59 < yday
      · rw [if_pos ⟨hL, h60⟩] at h
        have hms := monthSel_spec (yday - 1) mm dd (by omega) (by omega) h
        have h3m : 3 ≤ mm := hms.2.2.2.2.2.mpr (by omega)
        have hml : monthLen year mm = daysBefore (mm + 1) - daysBefore mm := by
          unfold monthLen; rw [if_neg (by omega)]; omega
        rw [hml, if_pos ⟨hL, h3m⟩]
        omega
      · rw [if_neg (by simp [hL, h60])] at h
        have hms := monthSel_spec yday mm dd h0 (by omega) h
        have h3m : ¬ 3 ≤ mm := fun hc => absurd (hms.2.2.2.2.2.mp hc) (by omega)
        rw [if_neg (by simp [h3m])]
        by_cases hm2 : mm = 2
        · have hml : monthLen year mm = daysBefore (mm + 1) - daysBefore mm + 1 := by
            unfold monthLen; rw [if_pos ⟨hL, hm2⟩]
          rw [hml]; omega
        · have hml : monthLen year mm = daysBefore (mm + 1) - daysBefore mm := by
            unfold monthLen; rw [if_neg (by simp [hm2])]; omega
          rw [hml]; omega
  · rw [if_neg (fun hc => hL hc.1), if_neg (fun hc => hL hc.1)] at h
    have h364 : yday ≤ 364 := by
      rcases h1 with h | h
      · exact h
      · exact absurd h.2 hL
    have hms := monthSel_spec yday mm dd h0 h364 h
    have hml : monthLen year mm = daysBefore (mm + 1) - daysBefore mm := by
      unfold monthLen; rw [if_neg (fun hc => hL hc.1)]; omega
    rw [hml, if_neg (fun hc => hL hc.1)]
    omega

/-- Bounds for the day-of-year count of a valid civil date. -/
theorem ydayBound (y m d : Int) (hm1 : 1 ≤ m) (hm2 : m ≤ 12)
    (hd1 : 1 ≤ d) (hd2 : d ≤ monthLen y m) :
    0 ≤ daysBefore m + (if isLeap y ∧ 3 ≤ m then 1 else 0) + (d - 1) ∧
    (daysBefore m + (if isLeap y ∧ 3 ≤ m then 1 else 0) + (d - 1) ≤ 364 ∨
      (daysBefore m + (if isLeap y ∧ 3 ≤ m then 1 else 0) + (d - 1) = 365 ∧ isLeap y)) := by
  have hlo := daysBefore_mono 1 m (by omega) (by omega) (by omega)
  have hhi := daysBefore_mono (m + 1) 13 (by omega) (by omega) (by omega)
  have e1 : daysBefore 1 = 0 := by decide
  have e13 : daysBefore 13 = 365 := by decide
  by_cases hL : isLeap y
  · by_cases h3 : 3 ≤ m
    · rw [if_pos ⟨hL, h3⟩]
      have hml : monthLen y m = daysBefore (m + 1) - daysBefore m := by
        unfold monthLen; rw [if_neg (by omega)]; omega
      rw [hml] at hd2
      constructor
      · omega
      · by_cases htop : daysBefore m + 1 + (d - 1) = 365
        · right; exact ⟨htop, hL⟩
        · left; omega
    · rw [if_neg (by simp [h3])]
      have e2 : daysBefore 2 = 31 := by decide
      have e3 : daysBefore (2 + 1) = 59 := by decide
      have hml : monthLen y m ≤ daysBefore (m + 1) - daysBefore m + 1 := by
        unfold monthLen; split_ifs <;> omega
      have hmono2 : daysBefore (m + 1) ≤ daysBefore (2 + 1) :=
        daysBefore_mono (m + 1) (2 + 1) (by omega) (by omega) (by omega)
      omega
  · rw [if_neg (fun hc => hL hc.1)]
    have hml : monthLen y m = daysBefore (m + 1) - daysBefore m := by
      unfold monthLen; rw [if_neg (fun hc => hL hc.1)]; omega
    rw [hml] at hd2
    constructor
    · omega
    · left; omega


/-- Inverse of the month/day part: a valid civil date is recovered from
its day-of-year count. -/
theorem monthDayOfYday_inv (y m d : Int) (hm1 : 1 ≤ m) (hm2 : m ≤ 12)
    (hd1 : 1 ≤ d) (hd2 : d ≤ monthLen y m) :
    monthDayOfYday y (daysBefore m + (if isLeap y ∧ 3 ≤ m then 1 else 0) + (d - 1)) = (m, d) := by
  have e2 : daysBefore 2 = 31 := by decide
  have e3 : daysBefore (2 + 1) = 59 := by decide
  have e33 : daysBefore 3 = 59 := by decide
  have e11 : daysBefore 1 = 0 := by decide
  have e12 : daysBefore (1 + 1) = 31 := by decide
  by_cases hL : isLeap y
  · by_cases h3 : 3 ≤ m
    · rw [show (if isLeap y ∧ 3 ≤ m then (1 : Int) else 0) = 1 from if_pos ⟨hL, h3⟩]
      unfold monthDayOfYday
      have hml : monthLen y m = daysBefore (m + 1) - daysBefore m := by
        unfold monthLen; rw [if_neg (fun hc => absurd hc.2 (by omega))]; omega
      have hmono3 : daysBefore 3 ≤ daysBefore m := daysBefore_mono 3 m (by omega) h3 (by omega)
      have h59 : ¬ (daysBefore m + 1 + (d - 1) = 59) := by omega
      have h60 : 59 < daysBefore m + 1 + (d - 1) := by omega
      rw [if_neg (fun hc => h59 hc.2), if_pos ⟨hL, h60⟩]
      exact monthSel_inv _ m d hm1 hm2 hd1 (by omega) (by omega)
    · rw [show (if isLeap y ∧ 3 ≤ m then (1 : Int) else 0) = 0 from if_neg (fun hc => h3 hc.2)]
      by_cases h29 : m = 2 ∧ d = 29
      · obtain ⟨rfl, rfl⟩ := h29
        unfold monthDayOfYday
        rw [if_pos ⟨hL, by omega⟩]
      · have hd28 : daysBefore m + 0 + (d - 1) ≤ 58 := by
          rcases (by omega : m = 1 ∨ m = 2) with rfl | rfl
          · have hml1 : monthLen y 1 = 31 := by
              unfold monthLen; rw [if_neg (fun hc => absurd hc.2 (by omega))]; omega
            omega
          · have hml2 : monthLen y 2 = 29 := by
              unfold monthLen; rw [if_pos ⟨hL, rfl⟩]; omega
            have hdle : d ≤ 28 := by
              rcases (by omega : d ≤ 28 ∨ d = 29) with h | h
              · exact h
              · exact absurd ⟨rfl, h⟩ h29
            omega
        unfold monthDayOfYday
        rw [if_neg (fun hc => absurd hc.2 (by omega)),
          if_neg (fun hc => absurd hc.2 (by omega))]
        apply monthSel_inv _ m d hm1 hm2 hd1 _ (by omega)
        rcases (by omega : m = 1 ∨ m = 2) with rfl | rfl
        · have hml1 : monthLen y 1 = 31 := by
            unfold monthLen; rw [if_neg (fun hc => absurd hc.2 (by omega))]; omega
          omega
        · have hdle : d ≤ 28 := by
            have hml2 : monthLen y 2 = 29 := by
              unfold monthLen; rw [if_pos ⟨hL, rfl⟩]; omega
            rcases (by omega : d ≤ 28 ∨ d = 29) with h | h
            · exact h
            · exact absurd ⟨rfl, h⟩ h29
          omega
  · rw [show (if isLeap y ∧ 3 ≤ m then (1 : Int) else 0) = 0 from if_neg (fun hc => hL hc.1)]
    unfold monthDayOfYday
    rw [if_neg (fun hc => hL hc.1), if_neg (fun hc => hL hc.1)]
    have hml : monthLen y m = daysBefore (m + 1) - daysBefore m := by
      unfold monthLen; rw [if_neg (fun hc => hL hc.1)]; omega
    exact monthSel_inv _ m d hm1 hm2 hd1 (by omega) (by omega)

/-- Forward roundtrip and validity: `civilFromDays` produces a valid
civil date whose day count is `z` again. -/
theorem civil_spec (z : Int) :
    1 ≤ (civilFromDays z).m ∧ (civilFromDays z).m ≤ 12 ∧
    1 ≤ (civilFromDays z).d ∧
    (civilFromDays z).d ≤ monthLen (civilFromDays z).y (civilFromDays z).m ∧
    dateToAbsDay (civilFromDays z).y (civilFromDays z).m (civilFromDays z).d = z := by
  have hs := stagesOf z
  have h1 : ydayOf z ≤ 364 ∨ (ydayOf z = 365 ∧ isLeap (yearOfDay z)) := by
    by_cases h : ydayOf z = 365
    · exact Or.inr ⟨h, yday_top_leap z h⟩
    · exact Or.inl (by omega)
  rcases hp : monthDayOfYday (yearOfDay z) (ydayOf z) with ⟨mm, dd⟩
  have hmf := monthDayOfYday_spec (yearOfDay z) (ydayOf z) mm dd (by omega) h1 hp
  unfold civilFromDays
  rw [hp]
  dsimp only
  refine ⟨hmf.1, hmf.2.1, hmf.2.2.1, hmf.2.2.2.1, ?_⟩
  unfold dateToAbsDay
  rw [daysToYear_yearOfDay]
  omega

/-- Leap years in 400-year-cycle coordinates of `year - 1`. -/
theorem isLeap_coords (y : Int) :
    isLeap y ↔ ((y - 1) % 400 % 100 % 4 = 3 ∧
      ((y - 1) % 400 % 100 / 4 = 24 → (y - 1) % 400 / 100 = 3)) := by
  unfold isLeap
  omega

/-- Uniqueness of the cycle decomposition: `civilFromDays`' stages recover
given coordinates. -/
theorem stages_unique (z a b c e yd : Int)
    (hz : z = 146097 * a + 36524 * b + 1461 * c + 365 * e + yd - 719162)
    (hb0 : 0 ≤ b) (hb1 : b ≤ 3) (hc0 : 0 ≤ c) (hc1 : c ≤ 24)
    (he0 : 0 ≤ e) (he1 : e ≤ 3) (hy0 : 0 ≤ yd) (hy1 : yd ≤ 365)
    (htop : yd = 365 → e = 3 ∧ (c = 24 → b = 3)) :
    n400Of z = a ∧ n100Of z = b ∧ n4Of z = c ∧ n1Of z = e ∧ ydayOf z = yd := by
  have h1 : n400Of z = a ∧ r400Of z = 36524 * b + 1461 * c + 365 * e + yd := by
    unfold r400Of n400Of d0Of; omega
  have hn100 : n100Of z = b := by
    unfold n100Of; rw [h1.2]
    obtain ⟨q, hq⟩ : ∃ q, (36524 * b + 1461 * c + 365 * e + yd) / 36524 = q := ⟨_, rfl⟩
    rw [hq]
    rcases (by omega : 1461 * c + 365 * e + yd ≤ 36523 ∨ (c = 24 ∧ e = 3 ∧ yd = 365)) with
      hr | ⟨hcc, hee, hyy⟩
    · have : q = b := by omega
      omega
    · have hb3 : b = 3 := (htop hyy).2 hcc
      have : q = 4 := by omega
      omega
  have h2 : r100Of z = 1461 * c + 365 * e + yd := by
    unfold r100Of; rw [h1.2, hn100]; ring
  have h3 : n4Of z = c ∧ r4Of z = 365 * e + yd := by
    unfold r4Of n4Of; rw [h2]; omega
  have hn1 : n1Of z = e := by
    unfold n1Of; rw [h3.2]
    obtain ⟨q, hq⟩ : ∃ q, (365 * e + yd) / 365 = q := ⟨_, rfl⟩
    rw [hq]
    rcases (by omega : yd ≤ 364 ∨ yd = 365) with hr | hyy
    · have : q = e := by omega
      omega
    · have he3 : e = 3 := (htop hyy).1
      have : q = 4 := by omega
      omega
  have h4 : ydayOf z = yd := by
    unfold ydayOf; rw [h3.2, hn1]; ring
  exact ⟨h1.1, hn100, h3.1, hn1, h4⟩

/-- Inverse roundtrip: a valid civil date is recovered from its day count. -/
theorem civil_inv (y m d : Int) (hm1 : 1 ≤ m) (hm2 : m ≤ 12)
    (hd1 : 1 ≤ d) (hd2 : d ≤ monthLen y m) :
    civilFromDays (dateToAbsDay y m d) = ⟨y, m, d⟩ := by
  have hyb := ydayBound y m d hm1 hm2 hd1 hd2
  have hz : dateToAbsDay y m d =
      146097 * ((y - 1) / 400) + 36524 * ((y - 1) % 400 / 100) +
        1461 * ((y - 1) % 400 % 100 / 4) + 365 * ((y - 1) % 400 % 100 % 4) +
        (daysBefore m + (if isLeap y ∧ 3 ≤ m then 1 else 0) + (d - 1)) - 719162 := by
    unfold dateToAbsDay daysToYear; omega
  have htop : daysBefore m + (if isLeap y ∧ 3 ≤ m then 1 else 0) + (d - 1) = 365 →
      (y - 1) % 400 % 100 % 4 = 3 ∧
        ((y - 1) % 400 % 100 / 4 = 24 → (y - 1) % 400 / 100 = 3) := by
    intro h365
    rcases hyb.2 with h | h
    · omega
    · exact (isLeap_coords y).mp h.2
  have hu := stages_unique (dateToAbsDay y m d) ((y - 1) / 400) ((y - 1) % 400 / 100)
    ((y - 1) % 400 % 100 / 4) ((y - 1) % 400 % 100 % 4)
    (daysBefore m + (if isLeap y ∧ 3 ≤ m then 1 else 0) + (d - 1))
    hz (by omega) (by omega) (by omega) (by omega) (by omega) (by omega)
    hyb.1 (by rcases hyb.2 with h | h <;> omega) htop
  have hyr : yearOfDay (dateToAbsDay y m d) = y := by
    unfold yearOfDay
    rw [hu.1, hu.2.1, hu.2.2.1, hu.2.2.2.1]
    omega
  have hydv : ydayOf (dateToAbsDay y m d) =
      daysBefore m + (if isLeap y ∧ 3 ≤ m then 1 else 0) + (d - 1) := hu.2.2.2.2
  unfold civilFromDays
  rw [hyr, hydv, monthDayOfYday_inv y m d hm1 hm2 hd1 hd2]

/-! ## Instants (seconds since the Unix epoch) and Go `time` operations

The hook always works in `time.Now().Local()`; the model uses a fixed
zone offset, so decomposition is plain arithmetic on the epoch count. -/

def civilOf (t : Int) : Civil := civilFromDays (t / 86400)
def yearOf (t : Int) : Int := (civilOf t).y
def monthOf (t : Int) : Int := (civilOf t).m
def dayOf (t : Int) : Int := (civilOf t).d
def hourOf (t : Int) : Int := t % 86400 / 3600
def minuteOf (t : Int) : Int := t % 3600 / 60
def secondOf (t : Int) : Int := t % 60

/-- Go `time.Date` (fixed zone), in seconds since the epoch: the month
is normalised into `[1,12]` (overflowing into the year, Go's `norm`);
day/hour/minute/second spill arithmetically exactly as in Go. -/
def goDate (year month day hh mm ss : Int) : Int :=
  86400 * dateToAbsDay (year + (month - 1) / 12) ((month - 1) % 12 + 1) day +
    3600 * hh + 60 * mm + ss

/-- Go `Time.AddDate(years, months, days)`:
`Date(y+years, m+months, d+days, hh, mm, ss, ns, loc)`. -/
def addDate (t years months days : Int) : Int :=
  goDate (yearOf t + years) (monthOf t + months) (dayOf t + days)
    (hourOf t) (minuteOf t) (secondOf t)

theorem monthOf_range (t : Int) : 1 ≤ monthOf t ∧ monthOf t ≤ 12 := by
  have h := civil_spec (t / 86400)
  unfold monthOf civilOf
  exact ⟨h.1, h.2.1⟩

theorem dayOf_range (t : Int) :
    1 ≤ dayOf t ∧ dayOf t ≤ monthLen (yearOf t) (monthOf t) := by
  have h := civil_spec (t / 86400)
  unfold dayOf yearOf monthOf civilOf
  exact ⟨h.2.2.1, h.2.2.2.1⟩

theorem absDay_of (t : Int) :
    dateToAbsDay (yearOf t) (monthOf t) (dayOf t) = t / 86400 := by
  have h := civil_spec (t / 86400)
  unfold yearOf monthOf dayOf civilOf
  exact h.2.2.2.2

/-- Time-of-day recomposition. -/
theorem tod_eq (t : Int) :
    3600 * hourOf t + 60 * minuteOf t + secondOf t = t % 86400 := by
  unfold hourOf minuteOf secondOf
  omega

/-- `goDate` applied to an instant's own civil fields truncates to its
day and adds the given time of day. -/
theorem goDate_trunc (u hh mm ss : Int) :
    goDate (yearOf u) (monthOf u) (dayOf u) hh mm ss =
      86400 * (u / 86400) + 3600 * hh + 60 * mm + ss := by
  have hm := monthOf_range u
  unfold goDate
  rw [show (monthOf u - 1) / 12 = 0 by omega,
    show (monthOf u - 1) % 12 + 1 = monthOf u by omega, add_zero, absDay_of]

/-- `dateToAbsDay` is linear in the day argument. -/
theorem dateToAbsDay_day (y m a b : Int) :
    dateToAbsDay y m a = dateToAbsDay y m b + (a - b) := by
  unfold dateToAbsDay; ring

theorem monthLen_bounds (y m : Int) (h1 : 1 ≤ m) (h2 : m ≤ 12) :
    28 ≤ monthLen y m ∧ monthLen y m ≤ 31 := by
  unfold monthLen
  rw [daysBefore_eq (m + 1), daysBefore_eq m]
  split_ifs <;> omega

/-- A calendar year has `365` days, `366` in leap years. -/
theorem daysToYear_step (y : Int) :
    daysToYear (y + 1) = daysToYear y + 365 + (if isLeap y then 1 else 0) := by
  by_cases hL : isLeap y
  · rw [if_pos hL]
    unfold isLeap at hL
    unfold daysToYear
    omega
  · rw [if_neg hL]
    unfold isLeap at hL
    unfold daysToYear
    omega

/-- Advancing a valid month by one (with Go's normalisation) advances the
day count by that month's length. -/
theorem dateToAbsDay_nextMonth (y m d : Int) (hm1 : 1 ≤ m) (hm2 : m ≤ 12) :
    dateToAbsDay (y + (m + 1 - 1) / 12) ((m + 1 - 1) % 12 + 1) d =
      dateToAbsDay y m d + monthLen y m := by
  rcases (by omega : m ≤ 11 ∨ m = 12) with h11 | rfl
  · rw [show (m + 1 - 1) / 12 = 0 by omega,
      show (m + 1 - 1) % 12 + 1 = m + 1 by omega, add_zero]
    unfold dateToAbsDay monthLen
    by_cases hL : isLeap y
    · simp only [hL, true_and]
      split_ifs <;> omega
    · simp only [hL, false_and, if_false]
      omega
  · rw [show ((12 : Int) + 1 - 1) / 12 = 1 by decide,
      show ((12 : Int) + 1 - 1) % 12 + 1 = 1 by decide]
    have hstep := daysToYear_step y
    have e1 : daysBefore 1 = 0 := by decide
    have e13 : daysBefore (12 + 1) = 365 := by decide
    have e12 : daysBefore 12 = 334 := by decide
    unfold dateToAbsDay monthLen
    by_cases hL : isLeap y
    · simp only [hL, true_and, if_pos] at hstep ⊢
      split_ifs <;> omega
    · simp only [hL, false_and, if_false, if_neg] at hstep ⊢
      omega

theorem goDate_first (u : Int) :
    goDate (yearOf u) (monthOf u) 1 0 0 0 = 86400 * dateToAbsDay (yearOf u) (monthOf u) 1 := by
  have hm := monthOf_range u
  unfold goDate
  rw [show (monthOf u - 1) / 12 = 0 by omega,
    show (monthOf u - 1) % 12 + 1 = monthOf u by omega, add_zero]
  ring

/-- `AddDate(0,0,1)` adds exactly one day (86400 s) in this zone model. -/
theorem addDate_day (t : Int) : addDate t 0 0 1 = t + 86400 := by
  unfold addDate
  rw [show yearOf t + 0 = yearOf t by ring, show monthOf t + 0 = monthOf t by ring]
  have hm := monthOf_range t
  unfold goDate
  rw [show (monthOf t - 1) / 12 = 0 by omega,
    show (monthOf t - 1) % 12 + 1 = monthOf t by omega, add_zero]
  rw [dateToAbsDay_day (yearOf t) (monthOf t) (dayOf t + 1) (dayOf t), absDay_of]
  have htod := tod_eq t
  omega

/-- `AddDate(0,1,0)` lands one month length ahead, same time of day. -/
theorem addDate_month_eq (t : Int) :
    addDate t 0 1 0 =
      86400 * (t / 86400 + monthLen (yearOf t) (monthOf t)) + t % 86400 := by
  unfold addDate
  rw [show yearOf t + 0 = yearOf t by ring, show dayOf t + 0 = dayOf t by ring]
  have hm := monthOf_range t
  unfold goDate
  rw [dateToAbsDay_nextMonth (yearOf t) (monthOf t) (dayOf t) hm.1 hm.2, absDay_of]
  have htod := tod_eq t
  omega

/-- `AddDate(1,0,0)` shifts the year field by one, same month/day/tod. -/
theorem addDate_year_eq (t : Int) :
    addDate t 1 0 0 =
      86400 * dateToAbsDay (yearOf t + 1) (monthOf t) (dayOf t) + t % 86400 := by
  unfold addDate
  rw [show monthOf t + 0 = monthOf t by ring, show dayOf t + 0 = dayOf t by ring]
  have hm := monthOf_range t
  unfold goDate
  rw [show (monthOf t - 1) / 12 = 0 by omega,
    show (monthOf t - 1) % 12 + 1 = monthOf t by omega, add_zero]
  have htod := tod_eq t
  omega

/-- The day component of the civil date of `dateToAbsDay y' m' d` never
exceeds `d` (spilling moves to an early day of the next month). -/
theorem civil_day_le (y' m' d : Int) (hm1 : 1 ≤ m') (hm2 : m' ≤ 12)
    (hd1 : 1 ≤ d) (hd31 : d ≤ 31) :
    (civilFromDays (dateToAbsDay y' m' d)).d ≤ d ∧
    1 ≤ (civilFromDays (dateToAbsDay y' m' d)).d := by
  by_cases hle : d ≤ monthLen y' m'
  · rw [civil_inv y' m' d hm1 hm2 hd1 hle]
    exact ⟨le_refl d, hd1⟩
  · have hml := monthLen_bounds y' m' hm1 hm2
    have hgap := dateToAbsDay_nextMonth y' m' (d - monthLen y' m') hm1 hm2
    have hlin := dateToAbsDay_day y' m' d (d - monthLen y' m')
    have heq : dateToAbsDay y' m' d =
        dateToAbsDay (y' + (m' + 1 - 1) / 12) ((m' + 1 - 1) % 12 + 1)
          (d - monthLen y' m') := by omega
    have hml' := monthLen_bounds (y' + (m' + 1 - 1) / 12) ((m' + 1 - 1) % 12 + 1)
      (by omega) (by omega)
    rw [heq, civil_inv _ _ _ (by omega) (by omega) (by omega) (by omega)]
    dsimp only
    omega

/-- Moving a valid date's year field one up keeps the civil year exactly
one ahead, and the result lies at or after Jan 1 of that next year. -/
theorem civil_year_next (y m d : Int) (hm1 : 1 ≤ m) (hm2 : m ≤ 12) (hd1 : 1 ≤ d)
    (hd2 : d ≤ monthLen y m) :
    (civilFromDays (dateToAbsDay (y + 1) m d)).y = y + 1 := by
  by_cases hle : d ≤ monthLen (y + 1) m
  · rw [civil_inv (y + 1) m d hm1 hm2 hd1 hle]
  · have hkey : m = 2 ∧ d = 29 ∧ isLeap y ∧ ¬ isLeap (y + 1) := by
      by_cases hm2' : m = 2
      · subst hm2'
        have e2 : daysBefore 2 = 31 := by decide
        have e3 : daysBefore (2 + 1) = 59 := by decide
        unfold monthLen at hd2 hle
        by_cases hLy : isLeap y <;> by_cases hLy1 : isLeap (y + 1)
        · rw [if_pos ⟨hLy1, rfl⟩] at hle; rw [if_pos ⟨hLy, rfl⟩] at hd2; omega
        · rw [if_neg (fun hc => hLy1 hc.1)] at hle; rw [if_pos ⟨hLy, rfl⟩] at hd2
          exact ⟨rfl, by omega, hLy, hLy1⟩
        · rw [if_pos ⟨hLy1, rfl⟩] at hle; rw [if_neg (fun hc => hLy hc.1)] at hd2; omega
        · rw [if_neg (fun hc => hLy1 hc.1)] at hle
          rw [if_neg (fun hc => hLy hc.1)] at hd2; omega
      · exfalso
        unfold monthLen at hd2 hle
        rw [if_neg (fun hc => hm2' hc.2)] at hd2 hle
        omega
    obtain ⟨rfl, rfl, hLy, hLy1⟩ := hkey
    have e2 : daysBefore 2 = 31 := by decide
    have e3 : daysBefore (2 + 1) = 59 := by decide
    have hml2 : monthLen (y + 1) 2 = 28 := by
      unfold monthLen; rw [if_neg (fun hc => hLy1 hc.1)]; omega
    have hgap := dateToAbsDay_nextMonth (y + 1) 2 1 (by omega) (by omega)
    rw [show ((2 : Int) + 1 - 1) / 12 = 0 by decide,
      show ((2 : Int) + 1 - 1) % 12 + 1 = 3 by decide, add_zero] at hgap
    have hlin := dateToAbsDay_day (y + 1) 2 29 1
    have hml3 := monthLen_bounds (y + 1) 3 (by omega) (by omega)
    have heq : dateToAbsDay (y + 1) 2 29 = dateToAbsDay (y + 1) 3 1 := by omega
    rw [heq, civil_inv (y + 1) 3 1 (by omega) (by omega) (by omega) (by omega)]

/-! ## File-name patterns and Go `Format`

A pattern is the parsed form of a Go layout string: literal chunks and
the numeric layout fields the hook's patterns use
(`2006 01 02 15 04 05`), rendered zero-padded as Go does. -/

inductive Tok where
  | lit (s : String)
  | year4
  | month2
  | day2
  | hour2
  | min2
  | sec2
deriving DecidableEq, Repr

def pad2 (n : Int) : String := if n < 10 then "0" ++ toString n else toString n

def pad4 (n : Int) : String :=
  if n < 10 then "000" ++ toString n
  else if n < 100 then "00" ++ toString n
  else if n < 1000 then "0" ++ toString n
  else toString n

def renderTok (t : Int) : Tok → String
  | Tok.lit s => s
  | Tok.year4 => pad4 (yearOf t)
  | Tok.month2 => pad2 (monthOf t)
  | Tok.day2 => pad2 (dayOf t)
  | Tok.hour2 => pad2 (hourOf t)
  | Tok.min2 => pad2 (minuteOf t)
  | Tok.sec2 => pad2 (secondOf t)

def format (pat : List Tok) (t : Int) : String :=
  String.join (pat.map (renderTok t))

/-! ## `rolloverAfter`

Translated from `FsrollHook.rolloverAfter` (fsrollhook.go) and the
identical `TimeBasedRollingFileHook.rolloverAfter` (rollingfile_hook.go).
The result is a duration in seconds (the Go code returns nanoseconds;
only its sign and the boundary instant `t + Δ` matter to the spec). -/

def rolloverAfter (pat : List Tok) (t : Int) : Int :=
  let oldFileName := format pat t
  if format pat (t + 60) ≠ oldFileName then
    goDate (yearOf (t + 60)) (monthOf (t + 60)) (dayOf (t + 60))
      (hourOf (t + 60)) (minuteOf (t + 60)) 0 - t
  else if format pat (t + 3600) ≠ oldFileName then
    goDate (yearOf (t + 3600)) (monthOf (t + 3600)) (dayOf (t + 3600))
      (hourOf (t + 3600)) 0 0 - t
  else if format pat (addDate t 0 0 1) ≠ oldFileName then
    goDate (yearOf (addDate t 0 0 1)) (monthOf (addDate t 0 0 1))
      (dayOf (addDate t 0 0 1)) 0 0 0 - t
  else if format pat (addDate t 0 1 0) ≠ oldFileName then
    goDate (yearOf (addDate t 0 1 0)) (monthOf (addDate t 0 1 0)) 1 0 0 0 - t
  else if format pat (addDate t 1 0 0) ≠ oldFileName then
    goDate (yearOf (addDate t 1 0 0)) 1 1 0 0 0 - t
  else 0

/-! ## Values of the five rollover branches -/

/-- Minute branch: the returned duration reaches exactly the top of the
next minute. -/
theorem minute_branch (t : Int) :
    goDate (yearOf (t + 60)) (monthOf (t + 60)) (dayOf (t + 60))
      (hourOf (t + 60)) (minuteOf (t + 60)) 0 - t = 60 - t % 60 := by
  rw [goDate_trunc]
  unfold hourOf minuteOf
  omega

/-- Hour branch: the returned duration reaches exactly the top of the
next hour. -/
theorem hour_branch (t : Int) :
    goDate (yearOf (t + 3600)) (monthOf (t + 3600)) (dayOf (t + 3600))
      (hourOf (t + 3600)) 0 0 - t = 3600 - t % 3600 := by
  rw [goDate_trunc]
  unfold hourOf
  omega

/-- Day branch: the returned duration reaches exactly the next midnight. -/
theorem day_branch (t : Int) :
    goDate (yearOf (addDate t 0 0 1)) (monthOf (addDate t 0 0 1))
      (dayOf (addDate t 0 0 1)) 0 0 0 - t = 86400 - t % 86400 := by
  rw [goDate_trunc, addDate_day]
  omega

/-! ## Unit-boundary predicates (start of minute/hour/day/month/year) -/

def isMinuteStart (u : Int) : Prop := u % 60 = 0
def isHourStart (u : Int) : Prop := u % 3600 = 0
def isDayStart (u : Int) : Prop := u % 86400 = 0
def isMonthStart (u : Int) : Prop := u % 86400 = 0 ∧ (civilOf u).d = 1
def isYearStart (u : Int) : Prop := u % 86400 = 0 ∧ (civilOf u).m = 1 ∧ (civilOf u).d = 1

theorem goDate_first_day (u : Int) :
    goDate (yearOf u) 1 1 0 0 0 = 86400 * dateToAbsDay (yearOf u) 1 1 := by
  unfold goDate
  rw [show ((1 : Int) - 1) / 12 = 0 by decide, show ((1 : Int) - 1) % 12 + 1 = 1 by decide,
    add_zero]
  ring

theorem dateToAbsDay_jan1 (y : Int) : dateToAbsDay y 1 1 = daysToYear y := by
  unfold dateToAbsDay
  rw [if_neg (fun hc => absurd hc.2 (by omega))]
  have e1 : daysBefore 1 = 0 := by decide
  omega

/-- Month branch: the instant built from the first of `AddDate(0,1,0)`'s
month is strictly after `t`, not after the candidate, and is a month
start. -/
theorem month_branch (t : Int) :
    0 < goDate (yearOf (addDate t 0 1 0)) (monthOf (addDate t 0 1 0)) 1 0 0 0 - t ∧
    goDate (yearOf (addDate t 0 1 0)) (monthOf (addDate t 0 1 0)) 1 0 0 0 ≤ addDate t 0 1 0 ∧
    isMonthStart (goDate (yearOf (addDate t 0 1 0)) (monthOf (addDate t 0 1 0)) 1 0 0 0) := by
  have hm := monthOf_range t
  have hd := dayOf_range t
  have hLb := monthLen_bounds (yearOf t) (monthOf t) hm.1 hm.2
  have hM := addDate_month_eq t
  have ht1div : (addDate t 0 1 0) / 86400 = t / 86400 + monthLen (yearOf t) (monthOf t) := by
    omega
  have hnext := dateToAbsDay_nextMonth (yearOf t) (monthOf t) (dayOf t) hm.1 hm.2
  have habs0 := absDay_of t
  have harg : dateToAbsDay (yearOf t + (monthOf t + 1 - 1) / 12)
      ((monthOf t + 1 - 1) % 12 + 1) (dayOf t) = (addDate t 0 1 0) / 86400 := by
    omega
  have hdle := civil_day_le (yearOf t + (monthOf t + 1 - 1) / 12)
    ((monthOf t + 1 - 1) % 12 + 1) (dayOf t) (by omega) (by omega) hd.1 (by omega)
  rw [harg] at hdle
  have hd1 : dayOf (addDate t 0 1 0) ≤ dayOf t ∧ 1 ≤ dayOf (addDate t 0 1 0) := by
    unfold dayOf civilOf
    exact hdle
  have hm1 := monthOf_range (addDate t 0 1 0)
  have hLb1 := monthLen_bounds (yearOf (addDate t 0 1 0)) (monthOf (addDate t 0 1 0))
    hm1.1 hm1.2
  have habs1 := absDay_of (addDate t 0 1 0)
  have hlin := dateToAbsDay_day (yearOf (addDate t 0 1 0)) (monthOf (addDate t 0 1 0)) 1
    (dayOf (addDate t 0 1 0))
  rw [goDate_first]
  refine ⟨by omega, by omega, by omega, ?_⟩
  have hX : 86400 * dateToAbsDay (yearOf (addDate t 0 1 0)) (monthOf (addDate t 0 1 0)) 1
      / 86400 = dateToAbsDay (yearOf (addDate t 0 1 0)) (monthOf (addDate t 0 1 0)) 1 := by
    omega
  unfold civilOf
  rw [hX, civil_inv _ _ _ hm1.1 hm1.2 (by omega) (by omega)]

/-- Year branch: the instant built from Jan 1 of `AddDate(1,0,0)`'s year
is strictly after `t`, not after the candidate, and is a year start. -/
theorem year_branch (t : Int) :
    0 < goDate (yearOf (addDate t 1 0 0)) 1 1 0 0 0 - t ∧
    goDate (yearOf (addDate t 1 0 0)) 1 1 0 0 0 ≤ addDate t 1 0 0 ∧
    isYearStart (goDate (yearOf (addDate t 1 0 0)) 1 1 0 0 0) := by
  have hm := monthOf_range t
  have hd := dayOf_range t
  have hY := addDate_year_eq t
  have hlow : daysToYear (yearOf t + 1) ≤
      dateToAbsDay (yearOf t + 1) (monthOf t) (dayOf t) := by
    have hmono := daysBefore_mono 1 (monthOf t) (by omega) hm.1 (by omega)
    have e1 : daysBefore 1 = 0 := by decide
    unfold dateToAbsDay
    have hb : (0 : Int) ≤ (if isLeap (yearOf t + 1) ∧ 3 ≤ monthOf t then 1 else 0) := by
      split_ifs <;> omega
    omega
  have ht1div : (addDate t 1 0 0) / 86400 =
      dateToAbsDay (yearOf t + 1) (monthOf t) (dayOf t) := by
    omega
  have hyn := civil_year_next (yearOf t) (monthOf t) (dayOf t) hm.1 hm.2 hd.1 hd.2
  have hy1 : yearOf (addDate t 1 0 0) = yearOf t + 1 := by
    unfold yearOf civilOf
    rw [ht1div]
    exact hyn
  have hyb := ydayBound (yearOf t) (monthOf t) (dayOf t) hm.1 hm.2 hd.1 hd.2
  have hstep := daysToYear_step (yearOf t)
  have habs0 := absDay_of t
  have habs0' : t / 86400 = daysToYear (yearOf t) +
      (daysBefore (monthOf t) + (if isLeap (yearOf t) ∧ 3 ≤ monthOf t then 1 else 0) +
        (dayOf t - 1)) := by
    unfold dateToAbsDay at habs0
    omega
  rw [goDate_first_day, hy1, dateToAbsDay_jan1]
  have hval : 86400 * daysToYear (yearOf t + 1) ≤ addDate t 1 0 0 := by
    omega
  have hpos : t < 86400 * daysToYear (yearOf t + 1) := by
    rcases hyb.2 with h | h
    · have hb : (0 : Int) ≤ (if isLeap (yearOf t) then 1 else 0) := by split_ifs <;> omega
      omega
    · rw [if_pos h.2] at hstep
      omega
  refine ⟨by omega, hval, by omega, ?_, ?_⟩ <;>
  · have hX : 86400 * daysToYear (yearOf t + 1) / 86400 = daysToYear (yearOf t + 1) := by
      omega
    unfold civilOf
    rw [hX, ← dateToAbsDay_jan1,
      civil_inv _ _ _ (by omega) (by omega) (by omega)
        (by have := monthLen_bounds (yearOf t + 1) 1 (by omega) (by omega); omega)]

/-! ## String helpers (Go `strings` / `path/filepath`) -/

def goToLower (s : String) : String := String.mk (s.data.map Char.toLower)

def goHasSuffix (s suf : String) : Bool := List.isSuffixOf suf.data s.data

/-- Go `strings.TrimSuffix`: drop the suffix when present (once). -/
def goTrimSuffix (s suf : String) : String :=
  if goHasSuffix s suf then String.mk (s.data.take (s.data.length - suf.data.length))
  else s

def extRev : List Char → List Char → String
  | [], _ => ""
  | c :: rest, acc =>
    if c = '/' then ""
    else if c = '.' then String.mk ('.' :: acc)
    else extRev rest (c :: acc)

/-- Go `filepath.Ext`: the suffix beginning at the final dot in the final
path element; empty when there is no dot. -/
def goExt (s : String) : String := extRev s.data.reverse []

def dirRev : List Char → List Char
  | [] => []
  | c :: rest => if c = '/' then rest else dirRev rest

/-- Go `filepath.Dir` (without `Clean`, enough for the model: the result
is only used as the key of the directory-creation oracle). -/
def goDir (s : String) : String :=
  let r := dirRev s.data.reverse
  if r.isEmpty then "." else String.mk r.reverse

/-! ## Archive suffix (file_archive.go) -/

def GzipSuffix : String := ".gz"

/-- The switch in `rolloverFile`: the lower-cased extension is compared
with `GzipSuffix`, and on a match the literal (case-sensitive) suffix is
trimmed from the unmodified name. -/
def stripArchiveSuffix (name : String) : String :=
  if goToLower (goExt name) = GzipSuffix then goTrimSuffix name GzipSuffix else name

/-! ## Filesystem / hook effect model

`Entry` is an opaque `logrus.Entry`; `Bytes` a formatted payload.
`Sys` carries the visible filesystem (existing files and contents) plus
oracles for each fallible call the hook makes: `os.MkdirAll`,
`os.OpenFile` (append/create), `os.File.Write`, `io.Copy`, `os.Remove`,
and the external `Formatter.Format`. -/

abbrev Entry := Nat
abbrev Bytes := List Nat
abbrev Err := Unit

structure Sys where
  fsys : String → Option Bytes
  dirOk : String → Bool
  openOk : String → Bool
  writeOk : Bool
  copyOk : Bool
  removeOk : Bool
  fmtRes : Entry → Except Err Bytes

structure HookSt where
  fileNamePattern : List Tok
  file : Option String

/-- Point update of a file map. -/
def setAt (f : String → Option Bytes) (p : String) (v : Option Bytes) :
    String → Option Bytes :=
  fun q => if q = p then v else f q

/-- `os.OpenFile(name, O_APPEND|O_CREATE|O_WRONLY, 0664)` on success:
the file is created empty when absent, kept (appended to later) when
present. -/
def openAppendCreate (sys : Sys) (p : String) : Sys :=
  { sys with fsys := setAt sys.fsys p (some ((sys.fsys p).getD [])) }

/-- A write through an open handle: appends when the backing path still
exists; when the path was removed the bytes go to the orphaned inode and
no file reappears. -/
def writeHandle (sys : Sys) (p : String) (b : Bytes) : Option Err × Sys :=
  if sys.writeOk then
    (none, { sys with fsys := setAt sys.fsys p ((sys.fsys p).map (fun c => c ++ b)) })
  else (some (), sys)

structure RollOut where
  oldFileName : String
  err : Option Err
  hook : HookSt
  sys : Sys

/-- `FsrollHook.rolloverFile` / `TimeBasedRollingFileHook.rolloverFile`:
capture the old name, clear the handle, render and archive-strip the new
name, create directories, open append/create, install the new handle.
Close errors are only logged and have no modelled effect. -/
def rolloverFile (sys : Sys) (t : Int) (h : HookSt) : RollOut :=
  let oldFileName := match h.file with
    | some p => p
    | none => ""
  let h1 : HookSt := { h with file := none }
  let newFileName := stripArchiveSuffix (format h.fileNamePattern t)
  if ¬ sys.dirOk (goDir newFileName) then ⟨oldFileName, some (), h1, sys⟩
  else if ¬ sys.openOk newFileName then ⟨oldFileName, some (), h1, sys⟩
  else ⟨oldFileName, none, { h1 with file := some newFileName },
    openAppendCreate sys newFileName⟩

structure WriteOut where
  err : Option Err
  hook : HookSt
  sys : Sys

/-- `FsrollHook.write`: nil handle is a silent no-op; otherwise if the
backing path no longer exists it is recreated (mkdir + open
append/create) and installed, then the entry is formatted and written. -/
def fsWrite (sys : Sys) (h : HookSt) (e : Entry) : WriteOut :=
  match h.file with
  | none => ⟨none, h, sys⟩
  | some fileName =>
    if (sys.fsys fileName).isNone then
      if ¬ sys.dirOk (goDir fileName) then ⟨some (), h, sys⟩
      else if ¬ sys.openOk fileName then ⟨some (), h, sys⟩
      else
        let sys1 := openAppendCreate sys fileName
        let h1 : HookSt := { h with file := some fileName }
        match sys1.fmtRes e with
        | Except.error er => ⟨some er, h1, sys1⟩
        | Except.ok b =>
          let w := writeHandle sys1 fileName b
          ⟨w.1, h1, w.2⟩
    else
      match sys.fmtRes e with
      | Except.error er => ⟨some er, h, sys⟩
      | Except.ok b =>
        let w := writeHandle sys fileName b
        ⟨w.1, h, w.2⟩

/-- `TimeBasedRollingFileHook.write`: same, but with no existence check
and no recreation. -/
def tbWrite (sys : Sys) (h : HookSt) (e : Entry) : WriteOut :=
  match h.file with
  | none => ⟨none, h, sys⟩
  | some fileName =>
    match sys.fmtRes e with
    | Except.error er => ⟨some er, h, sys⟩
    | Except.ok b =>
      let w := writeHandle sys fileName b
      ⟨w.1, h, w.2⟩

structure LoopOut where
  hook : HookSt
  sys : Sys
  attempted : List Entry
  stopped : Bool

/-- `FsrollHook.writeEntry`: drain the queue in order; on a write error,
log and `return` (the goroutine terminates). `attempted` records the
entries whose write was attempted, `stopped` whether the loop returned
early. -/
def fsWriteEntry (sys : Sys) (h : HookSt) : List Entry → LoopOut
  | [] => ⟨h, sys, [], false⟩
  | e :: rest =>
    let w := fsWrite sys h e
    match w.err with
    | some _ => ⟨w.hook, w.sys, [e], true⟩
    | none =>
      let r := fsWriteEntry w.sys w.hook rest
      ⟨r.hook, r.sys, e :: r.attempted, r.stopped⟩

/-- `TimeBasedRollingFileHook.writeEntry`: drain the queue in order; a
write error is only logged and the loop continues. -/
def tbWriteEntry (sys : Sys) (h : HookSt) : List Entry → LoopOut
  | [] => ⟨h, sys, [], false⟩
  | e :: rest =>
    let w := tbWrite sys h e
    let r := tbWriteEntry w.sys w.hook rest
    ⟨r.hook, r.sys, e :: r.attempted, false⟩

inductive TimerSt where
  | armed (d : Int)
  | idle
deriving DecidableEq, Repr

structure NewOut where
  hook : HookSt
  err : Option Err
  timer : TimerSt
  sys : Sys

/-- `NewHook` / `NewTimeBasedRollingFileHook`: initial synchronous
rollover whose error is only logged; the timer is armed exactly when
`rolloverAfter` is positive; the returned error value is always `nil`. -/
def NewHook (sys : Sys) (t : Int) (pat : List Tok) : NewOut :=
  let h : HookSt := ⟨pat, none⟩
  let r := rolloverFile sys t h
  let d := rolloverAfter pat t
  ⟨r.hook, none, if 0 < d then TimerSt.armed d else TimerSt.idle, r.sys⟩

structure ResetOut where
  hook : HookSt
  timer : TimerSt
  oldFileName : String
  sys : Sys

/-- `resetTimer`: roll the file over (logging any error), recompute the
duration, rearm the timer when it is positive and stop it otherwise;
the old file name is handed to archiving. -/
def resetTimer (sys : Sys) (t : Int) (h : HookSt) : ResetOut :=
  let r := rolloverFile sys t h
  let d := rolloverAfter h.fileNamePattern t
  ⟨r.hook, if 0 < d then TimerSt.armed d else TimerSt.idle, r.oldFileName, r.sys⟩

/-! ## Gzip archiving (file_archive.go)

The compressed stream produced by `compress/gzip` is abstracted as a
function `gz : Bytes → Bytes`; the claims only concern file handling. -/

/-- `gzipArchive`: open `fileName + ".gz"` with `O_APPEND|O_CREATE`,
open the source for reading, stream-copy the compressed bytes. Any
failure returns an error; a partially created `.gz` file stays. -/
def gzipArchive (gz : Bytes → Bytes) (sys : Sys) (fileName : String) :
    Option Err × Sys :=
  let gzFileName := fileName ++ GzipSuffix
  if ¬ sys.openOk gzFileName then (some (), sys)
  else
    let sys1 := openAppendCreate sys gzFileName
    match sys.fsys fileName with
    | none => (some (), sys1)
    | some content =>
      if ¬ sys.copyOk then (some (), sys1)
      else
        let newContent := some (((sys.fsys gzFileName).getD []) ++ gz content)
        (none, { sys1 with fsys := setAt sys1.fsys gzFileName newContent })

/-- `gzipArchiveAndDelete`: gzip, then delete the original only when
gzipping returned no error. -/
def gzipArchiveAndDelete (gz : Bytes → Bytes) (sys : Sys) (fileName : String) :
    Option Err × Sys :=
  match gzipArchive gz sys fileName with
  | (some er, sys') => (some er, sys')
  | (none, sys') =>
    if sys.removeOk then (none, { sys' with fsys := setAt sys'.fsys fileName none })
    else (some (), sys')

/-- `archiveOldFile`: look the pattern's lower-cased extension up in the
archiver registry (only `.gz` is registered) and run the archiver,
logging (discarding) its error. -/
def archiveOldFile (gz : Bytes → Bytes) (sys : Sys) (patternName fileName : String) :
    Sys :=
  if goToLower (goExt patternName) = GzipSuffix then
    (gzipArchiveAndDelete gz sys fileName).2
  else sys

/-! ## Test fixtures (concrete patterns, instants, systems) -/

/-- A minute-granularity pattern, `".../minute.04.log"`. -/
def patMinute : List Tok := [Tok.lit "/tmp/tbrfh/minute.", Tok.min2, Tok.lit ".log"]

/-- A constant pattern with no time-varying component. -/
def patConst : List Tok := [Tok.lit "/tmp/tbrfh/a.log"]

/-- 1970-01-01 23:59:30 (seconds since the epoch). -/
def t2359 : Int := 86370

def sysAllOk : Sys :=
  ⟨fun _ => none, fun _ => true, fun _ => true, true, true, true, fun _ => Except.ok []⟩

def sysAllBad : Sys :=
  ⟨fun _ => none, fun _ => false, fun _ => false, false, false, false,
    fun _ => Except.error ()⟩

/-! ## Claim theorems: the rollover scheduler -/

/-- C1.  `rolloverAfter` tests the granularities in order minute, hour,
day, month, year and returns the duration for the first granularity whose
rendered name differs from the name at `t`; the returned duration ends
exactly at the start of that time unit (strictly after `t`, no later than
the candidate instant): for a minute-level change it is `60 - t % 60`,
landing at the top of the next minute, and correspondingly for the
coarser granularities. -/
theorem C1_scheduler_order_and_boundary (pat : List Tok) (t : Int) :
    (format pat (t + 60) ≠ format pat t →
      rolloverAfter pat t = 60 - t % 60 ∧ 0 < rolloverAfter pat t ∧
      rolloverAfter pat t ≤ 60 ∧ isMinuteStart (t + rolloverAfter pat t)) ∧
    (format pat (t + 60) = format pat t → format pat (t + 3600) ≠ format pat t →
      rolloverAfter pat t = 3600 - t % 3600 ∧ 0 < rolloverAfter pat t ∧
      rolloverAfter pat t ≤ 3600 ∧ isHourStart (t + rolloverAfter pat t)) ∧
    (format pat (t + 60) = format pat t → format pat (t + 3600) = format pat t →
      format pat (addDate t 0 0 1) ≠ format pat t →
      rolloverAfter pat t = 86400 - t % 86400 ∧ 0 < rolloverAfter pat t ∧
      rolloverAfter pat t ≤ 86400 ∧ isDayStart (t + rolloverAfter pat t)) ∧
    (format pat (t + 60) = format pat t → format pat (t + 3600) = format pat t →
      format pat (addDate t 0 0 1) = format pat t →
      format pat (addDate t 0 1 0) ≠ format pat t →
      0 < rolloverAfter pat t ∧ t + rolloverAfter pat t ≤ addDate t 0 1 0 ∧
      isMonthStart (t + rolloverAfter pat t)) ∧
    (format pat (t + 60) = format pat t → format pat (t + 3600) = format pat t →
      format pat (addDate t 0 0 1) = format pat t →
      format pat (addDate t 0 1 0) = format pat t →
      format pat (addDate t 1 0 0) ≠ format pat t →
      0 < rolloverAfter pat t ∧ t + rolloverAfter pat t ≤ addDate t 1 0 0 ∧
      isYearStart (t + rolloverAfter pat t)) := by
  refine ⟨?_, ?_, ?_, ?_, ?_⟩
  · intro h1
    simp only [rolloverAfter]
    rw [if_pos h1, minute_branch]
    refine ⟨rfl, by omega, by omega, ?_⟩
    unfold isMinuteStart
    omega
  · intro h1 h2
    simp only [rolloverAfter]
    rw [if_neg (fun hc => hc h1), if_pos h2, hour_branch]
    refine ⟨rfl, by omega, by omega, ?_⟩
    unfold isHourStart
    omega
  · intro h1 h2 h3
    simp only [rolloverAfter]
    rw [if_neg (fun hc => hc h1), if_neg (fun hc => hc h2), if_pos h3, day_branch]
    refine ⟨rfl, by omega, by omega, ?_⟩
    unfold isDayStart
    omega
  · intro h1 h2 h3 h4
    simp only [rolloverAfter]
    rw [if_neg (fun hc => hc h1), if_neg (fun hc => hc h2), if_neg (fun hc => hc h3),
      if_pos h4]
    have hb := month_branch t
    refine ⟨hb.1, by omega, ?_⟩
    rw [show t + (goDate (yearOf (addDate t 0 1 0)) (monthOf (addDate t 0 1 0)) 1 0 0 0 - t) =
      goDate (yearOf (addDate t 0 1 0)) (monthOf (addDate t 0 1 0)) 1 0 0 0 by ring]
    exact hb.2.2
  · intro h1 h2 h3 h4 h5
    simp only [rolloverAfter]
    rw [if_neg (fun hc => hc h1), if_neg (fun hc => hc h2), if_neg (fun hc => hc h3),
      if_neg (fun hc => hc h4), if_pos h5]
    have hb := year_branch t
    refine ⟨hb.1, by omega, ?_⟩
    rw [show t + (goDate (yearOf (addDate t 1 0 0)) 1 1 0 0 0 - t) =
      goDate (yearOf (addDate t 1 0 0)) 1 1 0 0 0 by ring]
    exact hb.2.2

/-- Witness for C1: minute pattern, clock at 23:59:30 — the scheduler
returns 30 s, landing at 00:00:00 of the next minute. -/
theorem C1_witness :
    rolloverAfter patMinute t2359 = 30 ∧
    isMinuteStart (t2359 + rolloverAfter patMinute t2359) := by
  have h := (C1_scheduler_order_and_boundary patMinute t2359).1 (by decide)
  unfold t2359 at h ⊢
  exact ⟨by omega, h.2.2.2⟩

/-- C9.  Whenever any of the five probes renders a different name (the
scheduler does not fall through to the final `return 0`), the returned
duration is strictly positive, so the construction-time arming and the
running timer loop both land in the armed state with that duration —
the loop never transitions to the idle state early. -/
theorem C9_positive_duration_rearm (pat : List Tok) (t : Int) (sys : Sys)
    (f : Option String)
    (h : format pat (t + 60) ≠ format pat t ∨ format pat (t + 3600) ≠ format pat t ∨
      format pat (addDate t 0 0 1) ≠ format pat t ∨
      format pat (addDate t 0 1 0) ≠ format pat t ∨
      format pat (addDate t 1 0 0) ≠ format pat t) :
    0 < rolloverAfter pat t ∧
    (NewHook sys t pat).timer = TimerSt.armed (rolloverAfter pat t) ∧
    (resetTimer sys t ⟨pat, f⟩).timer = TimerSt.armed (rolloverAfter pat t) := by
  have hpos : 0 < rolloverAfter pat t := by
    by_cases h1 : format pat (t + 60) ≠ format pat t
    · simp only [rolloverAfter]
      rw [if_pos h1, minute_branch]
      omega
    · by_cases h2 : format pat (t + 3600) ≠ format pat t
      · simp only [rolloverAfter]
        rw [if_neg h1, if_pos h2, hour_branch]
        omega
      · by_cases h3 : format pat (addDate t 0 0 1) ≠ format pat t
        · simp only [rolloverAfter]
          rw [if_neg h1, if_neg h2, if_pos h3, day_branch]
          omega
        · by_cases h4 : format pat (addDate t 0 1 0) ≠ format pat t
          · simp only [rolloverAfter]
            rw [if_neg h1, if_neg h2, if_neg h3, if_pos h4]
            exact (month_branch t).1
          · by_cases h5 : format pat (addDate t 1 0 0) ≠ format pat t
            · simp only [rolloverAfter]
              rw [if_neg h1, if_neg h2, if_neg h3, if_neg h4, if_pos h5]
              exact (year_branch t).1
            · rcases h with hd | hd | hd | hd | hd
              · exact absurd hd h1
              · exact absurd hd h2
              · exact absurd hd h3
              · exact absurd hd h4
              · exact absurd hd h5
  refine ⟨hpos, ?_, ?_⟩ <;> simp only [NewHook, resetTimer] <;> rw [if_pos hpos]

/-- Witness for C9 at the minute pattern and 23:59:30. -/
theorem C9_witness :
    0 < rolloverAfter patMinute t2359 ∧
    (NewHook sysAllOk t2359 patMinute).timer =
      TimerSt.armed (rolloverAfter patMinute t2359) := by
  have h := C9_positive_duration_rearm patMinute t2359 sysAllOk none
    (Or.inl (by decide))
  exact ⟨h.1, h.2.1⟩

/-- C5.  When the rendered name is unchanged under all five probes
(+1 minute, +1 hour, +1 day, +1 month, +1 year), `rolloverAfter`
returns zero, the constructor never arms the timer, and a running timer
loop stops rearming (goes idle). -/
theorem C5_constant_pattern_idle (pat : List Tok) (t : Int) (sys : Sys)
    (f : Option String)
    (h1 : format pat (t + 60) = format pat t)
    (h2 : format pat (t + 3600) = format pat t)
    (h3 : format pat (addDate t 0 0 1) = format pat t)
    (h4 : format pat (addDate t 0 1 0) = format pat t)
    (h5 : format pat (addDate t 1 0 0) = format pat t) :
    rolloverAfter pat t = 0 ∧
    (NewHook sys t pat).timer = TimerSt.idle ∧
    (resetTimer sys t ⟨pat, f⟩).timer = TimerSt.idle := by
  have hz : rolloverAfter pat t = 0 := by
    simp only [rolloverAfter]
    rw [if_neg (fun hc => hc h1), if_neg (fun hc => hc h2), if_neg (fun hc => hc h3),
      if_neg (fun hc => hc h4), if_neg (fun hc => hc h5)]
  refine ⟨hz, ?_, ?_⟩ <;> simp only [NewHook, resetTimer] <;> rw [hz] <;>
    rw [if_neg (by omega)]

/-- Witness for C5: a pattern with no time-varying component. -/
theorem C5_witness :
    rolloverAfter patConst 0 = 0 ∧ (NewHook sysAllOk 0 patConst).timer = TimerSt.idle := by
  have h := C5_constant_pattern_idle patConst 0 sysAllOk none
    (by decide) (by decide) (by decide) (by decide) (by decide)
  exact ⟨h.1, h.2.1⟩

/-! ## Claim theorems: the write serializer (C2) -/

theorem fsWriteEntry_inv (q : List Entry) : ∀ (sys : Sys) (h : HookSt),
    (∃ r, (fsWriteEntry sys h q).attempted ++ r = q) ∧
    ((fsWriteEntry sys h q).stopped = false → (fsWriteEntry sys h q).attempted = q) := by
  induction q with
  | nil => exact fun sys h => ⟨⟨[], rfl⟩, fun _ => rfl⟩
  | cons e rest IH =>
    intro sys h
    simp only [fsWriteEntry]
    cases herr : (fsWrite sys h e).err with
    | some er => exact ⟨⟨rest, rfl⟩, by simp⟩
    | none =>
      obtain ⟨⟨r, hr⟩, hs⟩ := IH (fsWrite sys h e).sys (fsWrite sys h e).hook
      exact ⟨⟨r, by simp [hr]⟩, fun hc => by simp [hs hc]⟩

theorem tbWriteEntry_all (q : List Entry) : ∀ (sys : Sys) (h : HookSt),
    (tbWriteEntry sys h q).attempted = q := by
  induction q with
  | nil => exact fun sys h => rfl
  | cons e rest IH =>
    intro sys h
    simp only [tbWriteEntry]
    rw [IH]

/-- C2 (amended).  In `FsrollHook`, a failed write makes the serializer
log and terminate at once: when the write of the head entry fails, the
loop's final state is exactly the state after that failing write and no
later entry is attempted; in general the attempted entries are a prefix
of the queue, and the whole queue is written iff the loop never stopped.
In `TimeBasedRollingFileHook`, by contrast, the serializer logs the error
and continues: every queued entry is attempted even after a failure. -/
theorem C2_serializer_stops_fs_only (sys : Sys) (h : HookSt) (e : Entry)
    (rest q : List Entry) (hfail : (fsWrite sys h e).err.isSome = true) :
    fsWriteEntry sys h (e :: rest) =
      ⟨(fsWrite sys h e).hook, (fsWrite sys h e).sys, [e], true⟩ ∧
    (∃ r, (fsWriteEntry sys h q).attempted ++ r = q) ∧
    ((fsWriteEntry sys h q).stopped = false → (fsWriteEntry sys h q).attempted = q) ∧
    (tbWriteEntry sys h q).attempted = q := by
  refine ⟨?_, (fsWriteEntry_inv q sys h).1, (fsWriteEntry_inv q sys h).2,
    tbWriteEntry_all q sys h⟩
  simp only [fsWriteEntry]
  cases herr : (fsWrite sys h e).err with
  | some er => rfl
  | none => rw [herr] at hfail; simp at hfail

/-- The queue and failure pattern of the C2 counterexample: the first
entry's formatting fails, the second succeeds with payload `[7]`. -/
def fmtFailFirst : Entry → Except Err Bytes :=
  fun e => if e = 0 then Except.error () else Except.ok [7]

def sysQueue : Sys :=
  ⟨fun p => if p = "p" then some [] else none, fun _ => true, fun _ => true,
    true, true, true, fmtFailFirst⟩

def hookOnP : HookSt := ⟨patConst, some "p"⟩

/-- Counterexample to C2 as stated: in `TimeBasedRollingFileHook` the
write of entry `0` fails, yet entry `1`, enqueued after it, is still
written to the file. -/
theorem C2_counterexample :
    (tbWrite sysQueue hookOnP 0).err = some () ∧
    (tbWriteEntry sysQueue hookOnP [0, 1]).sys.fsys "p" = some [7] := by decide

/-- Witness for C2's amended theorem: a failing head entry stops the
`FsrollHook` loop with only that entry attempted. -/
theorem C2_witness :
    (fsWriteEntry sysQueue hookOnP [0, 1]).attempted = [0] ∧
    (fsWriteEntry sysQueue hookOnP [0, 1]).stopped = true := by
  have h := C2_serializer_stops_fs_only sysQueue hookOnP 0 [1] [0, 1] (by decide)
  rw [h.1]
  exact ⟨rfl, rfl⟩

/-! ## Claim theorems: constructor error behaviour (C3) -/

/-- Counterexample to C3 as stated: the initial rollover inside the
constructor fails (directory creation and open both fail), but the
constructor still returns a `nil` error — the failure is logged, not
surfaced through the returned error value. -/
theorem C3_counterexample :
    (rolloverFile sysAllBad 0 ⟨patConst, none⟩).err = some () ∧
    (NewHook sysAllBad 0 patConst).err = none := by decide

/-- C3 (amended).  The constructor never surfaces the initial rollover
error: it logs it and returns a `nil` error in every case, while still
returning the hook object produced by the initial rollover (with its
queue and state intact, hence usable). -/
theorem C3_constructor_logs_only (sys : Sys) (t : Int) (pat : List Tok) :
    (NewHook sys t pat).err = none ∧
    (NewHook sys t pat).hook = (rolloverFile sys t ⟨pat, none⟩).hook ∧
    (NewHook sys t pat).sys = (rolloverFile sys t ⟨pat, none⟩).sys :=
  ⟨rfl, rfl, rfl⟩

/-! ## Claim theorems: archive-suffix stripping (C4) -/

theorem extRev_gz (r : List Char) : extRev ('z' :: 'g' :: '.' :: r) [] = ".gz" := rfl

/-- A name ending in the literal `".gz"` has extension `".gz"`. -/
theorem goExt_of_gz (s : String) (h : goHasSuffix s GzipSuffix = true) :
    goExt s = ".gz" := by
  unfold goHasSuffix at h
  obtain ⟨pre, hpre⟩ := List.isSuffixOf_iff_suffix.mp h
  unfold goExt
  rw [← hpre, List.reverse_append]
  exact extRev_gz pre.reverse

/-- C4 (amended).  Only the literal lowercase suffix is stripped: when
the rendered name ends with `".gz"`, `rolloverFile` opens the name with
that suffix trimmed (and returns no error when the directory and open
calls succeed).  Names ending in `".GZ"`/`".Gz"` are matched by the
case-insensitive switch but `TrimSuffix` leaves them unchanged (see the
counterexample), so the live file keeps the suffix in those cases. -/
theorem C4_lowercase_strip (pat : List Tok) (t : Int) (sys : Sys) (f : Option String)
    (hsuf : goHasSuffix (format pat t) GzipSuffix = true)
    (hdir : sys.dirOk (goDir (goTrimSuffix (format pat t) GzipSuffix)) = true)
    (hopen : sys.openOk (goTrimSuffix (format pat t) GzipSuffix) = true) :
    (rolloverFile sys t ⟨pat, f⟩).err = none ∧
    (rolloverFile sys t ⟨pat, f⟩).hook.file =
      some (goTrimSuffix (format pat t) GzipSuffix) := by
  have hstrip : stripArchiveSuffix (format pat t) =
      goTrimSuffix (format pat t) GzipSuffix := by
    unfold stripArchiveSuffix
    rw [goExt_of_gz _ hsuf]
    rw [if_pos (by decide)]
  simp only [rolloverFile, hstrip]
  rw [if_neg (by simp [hdir]), if_neg (by simp [hopen])]
  exact ⟨rfl, rfl⟩

/-- A pattern whose rendered name ends in uppercase `".GZ"`. -/
def patUpperGZ : List Tok := [Tok.lit "/tmp/tbrfh/a.GZ"]

/-- Counterexample to C4 as stated: the rendered name `"/tmp/tbrfh/a.GZ"`
ends with the archive suffix in upper case and the case-insensitive
switch matches it, yet the live file is opened with the suffix intact
(nothing is stripped). -/
theorem C4_counterexample :
    goToLower (goExt (format patUpperGZ 0)) = GzipSuffix ∧
    (rolloverFile sysAllOk 0 ⟨patUpperGZ, none⟩).hook.file = some "/tmp/tbrfh/a.GZ" := by
  decide

/-- Witness for C4's amended theorem at a concrete `.gz` pattern. -/
theorem C4_witness :
    (rolloverFile sysAllOk 0 ⟨[Tok.lit "/tmp/tbrfh/b.log.gz"], none⟩).hook.file =
      some "/tmp/tbrfh/b.log" := by
  have h := C4_lowercase_strip [Tok.lit "/tmp/tbrfh/b.log.gz"] 0 sysAllOk none
    (by decide) (by decide) (by decide)
  rw [h.2]
  decide

/-! ## Claim theorems: rollover failure leaves a silent no-op hook (C6) -/

/-- C6.  When directory creation or the open of the new file fails during
`rolloverFile`, the error is returned together with the previous file's
path, the hook is left with a nil handle, every subsequent write (in
either implementation) is a silent no-op returning nil, and a later
rollover whose OS calls succeed installs a fresh handle again. -/
theorem C6_rollover_failure_silent_noop (sys : Sys) (t : Int) (h : HookSt) (p : String)
    (hf : h.file = some p)
    (hfail : sys.dirOk (goDir (stripArchiveSuffix (format h.fileNamePattern t))) = false ∨
      sys.openOk (stripArchiveSuffix (format h.fileNamePattern t)) = false) :
    (rolloverFile sys t h).oldFileName = p ∧
    (rolloverFile sys t h).err = some () ∧
    (rolloverFile sys t h).hook.file = none ∧
    (∀ (sys2 : Sys) (e : Entry),
      fsWrite sys2 (rolloverFile sys t h).hook e =
        ⟨none, (rolloverFile sys t h).hook, sys2⟩ ∧
      tbWrite sys2 (rolloverFile sys t h).hook e =
        ⟨none, (rolloverFile sys t h).hook, sys2⟩) ∧
    (∀ (sys3 : Sys) (t3 : Int),
      sys3.dirOk (goDir (stripArchiveSuffix (format h.fileNamePattern t3))) = true →
      sys3.openOk (stripArchiveSuffix (format h.fileNamePattern t3)) = true →
      (rolloverFile sys3 t3 (rolloverFile sys t h).hook).hook.file =
        some (stripArchiveSuffix (format h.fileNamePattern t3))) := by
  have hroll : rolloverFile sys t h = ⟨p, some (), { h with file := none }, sys⟩ := by
    simp only [rolloverFile, hf]
    by_cases hd2 : sys.dirOk (goDir (stripArchiveSuffix (format h.fileNamePattern t)))
    · rcases hfail with hd | ho
      · rw [hd2] at hd; exact absurd hd (by simp)
      · rw [if_neg (by simp [hd2]), if_pos (by simp [ho])]
    · rw [if_pos (by simp [hd2])]
  rw [hroll]
  refine ⟨rfl, rfl, rfl, fun sys2 e => ⟨rfl, rfl⟩, fun sys3 t3 hd3 ho3 => ?_⟩
  simp only [rolloverFile]
  rw [if_neg (by simp [hd3]), if_neg (by simp [ho3])]

/-- Witness for C6: both OS calls fail; the old path is reported with the
error, the handle is nil, and a write is a silent no-op. -/
theorem C6_witness :
    (rolloverFile sysAllBad 0 hookOnP).oldFileName = "p" ∧
    (rolloverFile sysAllBad 0 hookOnP).err = some () ∧
    fsWrite sysAllOk (rolloverFile sysAllBad 0 hookOnP).hook 3 =
      ⟨none, (rolloverFile sysAllBad 0 hookOnP).hook, sysAllOk⟩ := by
  have h := C6_rollover_failure_silent_noop sysAllBad 0 hookOnP "p" rfl
    (Or.inl (by decide))
  exact ⟨h.1, h.2.1, (h.2.2.2.1 sysAllOk 3).1⟩

/-! ## Claim theorems: gzip archiving (C7, C10) -/

/-- `gzipArchive` never touches the source file itself (it only creates
and appends to `fileName + ".gz"`). -/
theorem gzipArchive_preserves_src (gz : Bytes → Bytes) (sys : Sys) (f : String) :
    (gzipArchive gz sys f).2.fsys f = sys.fsys f := by
  have hne : f ≠ f ++ GzipSuffix := by
    intro he
    have hl := congrArg String.length he
    rw [String.length_append] at hl
    have : GzipSuffix.length = 3 := by decide
    omega
  simp only [gzipArchive]
  by_cases hopen : sys.openOk (f ++ GzipSuffix)
  · rw [if_neg (by simp [hopen])]
    cases hsrc : sys.fsys f with
    | none => simp [openAppendCreate, setAt, hne, hsrc]
    | some c =>
      dsimp only
      by_cases hcopy : sys.copyOk
      · rw [if_neg (by simp [hcopy])]
        simp [openAppendCreate, setAt, hne, hsrc]
      · rw [if_pos (by simp [hcopy])]
        simp [openAppendCreate, setAt, hne, hsrc]
  · rw [if_pos (by simp [hopen])]

/-- C7.  The original plaintext file survives any gzip failure:
`os.Remove` runs only after `gzipArchive` returned without error (if the
original disappeared, archiving must have succeeded), and `archiveOldFile`
only logs the archiver's error. -/
theorem C7_delete_only_after_success (gz : Bytes → Bytes) (sys : Sys) (f : String) :
    ((gzipArchive gz sys f).1.isSome →
      (gzipArchiveAndDelete gz sys f).1.isSome = true ∧
      (gzipArchiveAndDelete gz sys f).2.fsys f = sys.fsys f) ∧
    (sys.fsys f ≠ none → (gzipArchiveAndDelete gz sys f).2.fsys f = none →
      (gzipArchive gz sys f).1 = none) ∧
    (∀ patName, archiveOldFile gz sys patName f =
      (if goToLower (goExt patName) = GzipSuffix then (gzipArchiveAndDelete gz sys f).2
        else sys)) := by
  have hpres := gzipArchive_preserves_src gz sys f
  rcases hg : gzipArchive gz sys f with ⟨e', s'⟩
  rw [hg] at hpres
  refine ⟨?_, ?_, fun patName => rfl⟩
  · intro hs
    cases e' with
    | none => simp at hs
    | some er =>
      simp only [gzipArchiveAndDelete, hg]
      exact ⟨rfl, hpres⟩
  · intro hne hdel
    cases e' with
    | none => rfl
    | some er =>
      simp only [gzipArchiveAndDelete, hg] at hdel
      exact absurd (hpres ▸ hdel) hne

/-- Gzip fixture: the source exists but `io.Copy` fails. -/
def sysCopyFail : Sys :=
  ⟨fun p => if p = "f" then some [1] else none, fun _ => true, fun _ => true,
    true, false, true, fun _ => Except.ok []⟩

/-- Witness for C7: with a failing copy, the plaintext source is still
present after `gzipArchiveAndDelete`. -/
theorem C7_witness :
    (gzipArchiveAndDelete (fun b => b) sysCopyFail "f").2.fsys "f" = some [1] := by
  have h := (C7_delete_only_after_success (fun b => b) sysCopyFail "f").1 (by decide)
  rw [h.2]
  decide

/-- C10.  `gzipArchive` opens its destination with append/create (not
truncate): an existing `.gz` file keeps its bytes and the newly
compressed stream is appended after them. -/
theorem C10_gz_appended_not_truncated (gz : Bytes → Bytes) (sys : Sys) (f : String)
    (c s : Bytes) (hgz : sys.fsys (f ++ GzipSuffix) = some c)
    (hsrc : sys.fsys f = some s) (hopen : sys.openOk (f ++ GzipSuffix) = true)
    (hcopy : sys.copyOk = true) :
    (gzipArchive gz sys f).1 = none ∧
    (gzipArchive gz sys f).2.fsys (f ++ GzipSuffix) = some (c ++ gz s) := by
  simp only [gzipArchive]
  rw [if_neg (by simp [hopen]), hsrc]
  dsimp only
  rw [if_neg (by simp [hcopy])]
  refine ⟨rfl, ?_⟩
  simp [setAt, hgz]

/-- Gzip fixture: both the `.gz` target and the source already exist. -/
def sysGzBoth : Sys :=
  ⟨fun p => if p = "f" then some [1] else if p = "f.gz" then some [2] else none,
    fun _ => true, fun _ => true, true, true, true, fun _ => Except.ok []⟩

/-- Witness for C10: the old `.gz` byte survives in front of the new
compressed stream. -/
theorem C10_witness :
    (gzipArchive (fun b => 9 :: b) sysGzBoth "f").2.fsys ("f" ++ GzipSuffix) =
      some [2, 9, 1] := by
  have h := C10_gz_appended_not_truncated (fun b => 9 :: b) sysGzBoth "f" [2] [1]
    (by decide) (by decide) (by decide) (by decide)
  rw [h.2]
  rfl

/-! ## Claim theorems: recreation on write (C8) -/

/-- C8 (amended).  `FsrollHook.write` recreates a missing backing file
before writing: directories are created, the path is reopened in
append/create mode, installed as the active handle, and the entry's
bytes land in the recreated file.  `TimeBasedRollingFileHook.write` has
no such check: it never creates a file at any missing path (writes to a
stale handle go to the orphaned inode). -/
theorem C8_recreate_fs_only (sys : Sys) (h : HookSt) (e : Entry) (p : String) (b : Bytes)
    (hf : h.file = some p) (hmiss : sys.fsys p = none)
    (hdir : sys.dirOk (goDir p) = true) (hopen : sys.openOk p = true)
    (hfmt : sys.fmtRes e = Except.ok b) (hw : sys.writeOk = true) :
    (fsWrite sys h e).err = none ∧
    (fsWrite sys h e).hook.file = some p ∧
    (fsWrite sys h e).sys.fsys p = some b ∧
    (∀ (sys2 : Sys) (h2 : HookSt) (e2 : Entry) (q : String),
      sys2.fsys q = none → (tbWrite sys2 h2 e2).sys.fsys q = none) := by
  have hfs : fsWrite sys h e =
      ⟨(writeHandle (openAppendCreate sys p) p b).1, { h with file := some p },
        (writeHandle (openAppendCreate sys p) p b).2⟩ := by
    simp only [fsWrite, hf, hmiss]
    rw [if_pos (show (none : Option Bytes).isNone = true from rfl),
      if_neg (by simp [hdir]), if_neg (by simp [hopen])]
    have hfmt1 : (openAppendCreate sys p).fmtRes e = Except.ok b := hfmt
    rw [hfmt1]
  rw [hfs]
  refine ⟨?_, rfl, ?_, ?_⟩
  · simp [writeHandle, openAppendCreate, setAt, hw]
  · simp [writeHandle, openAppendCreate, setAt, hw, hmiss]
  · intro sys2 h2 e2 q hq
    simp only [tbWrite]
    cases hfile : h2.file with
    | none => exact hq
    | some fn =>
      cases hfmt2 : sys2.fmtRes e2 with
      | error er => exact hq
      | ok b2 =>
        simp only [writeHandle]
        by_cases hw2 : sys2.writeOk
        · rw [if_pos hw2]
          simp only [setAt]
          by_cases hqf : q = fn
          · subst hqf; simp [hq]
          · simp [hqf, hq]
        · rw [if_neg hw2]
          exact hq

/-- Fixture for C8: every path is missing, all OS calls succeed, the
formatter produces `[9]`. -/
def sysMiss : Sys :=
  ⟨fun _ => none, fun _ => true, fun _ => true, true, true, true,
    fun _ => Except.ok [9]⟩

/-- Counterexample to C8 as stated: in `TimeBasedRollingFileHook`, with
the active handle's backing path `"p"` missing, the write "succeeds"
without recreating the file — no file appears at `"p"` and the entry is
not written to any file. -/
theorem C8_counterexample :
    (tbWrite sysMiss hookOnP 5).err = none ∧
    (tbWrite sysMiss hookOnP 5).sys.fsys "p" = none := by decide

/-- Witness for C8's amended theorem: `FsrollHook.write` recreates the
missing file and the entry's bytes land in it. -/
theorem C8_witness :
    (fsWrite sysMiss hookOnP 5).err = none ∧
    (fsWrite sysMiss hookOnP 5).hook.file = some "p" ∧
    (fsWrite sysMiss hookOnP 5).sys.fsys "p" = some [9] := by
  have h := C8_recreate_fs_only sysMiss hookOnP 5 "p" [9] rfl rfl (by decide)
    (by decide) rfl rfl
  exact ⟨h.1, h.2.1, h.2.2.1⟩
